import Mathlib

/-
  Verification development for checkov's Terraform module finder
  (src/checkov/terraform/module_loading/module_finder.py).

  The Python source is shallowly embedded below:
  - `ModuleDownload`, `ModuleDownload.address` mirror the class of the same name;
  - `matchSourceLine` / `matchVersionLine` embed the two `re.match` calls with
    Python's leftmost-longest backtracking semantics for those fixed patterns;
  - `find_modules` embeds the directory scan as a function over an explicit list
    of files, each carrying the outcome of `open()` and of iterating its lines;
  - `distinctModules`, `planBatches` embed the deduplicating dict comprehension
    and the batch-building loop of `load_tf_modules`;
  - `taskRun` / `execBatches` embed `_download_module` and the per-batch
    ThreadPoolExecutor dispatch, with the thread pool's barrier modelled as the
    ordering of the outer list of batches (one inner list per concurrent wave).
-/

namespace ModuleFinder

/-- Characters matched by Python's `\w` on ASCII input. -/
def isPyWordChar (c : Char) : Bool := c.isAlphanum || c = '_'

/-- Characters matched by Python's `\s` on ASCII input. -/
def isPySpace (c : Char) : Bool :=
  c = ' ' || c = '\t' || c = '\n' || c = '\r' || c = '\x0b' || c = '\x0c'

/-- Truth of `startsList p s`: it holds when `p` is an initial segment of `s`
(embedding of `str.startswith` on explicit character lists). -/
def startsList : List Char → List Char → Bool
  | [], _ => true
  | _ :: _, [] => false
  | a :: as, b :: bs => a = b && startsList as bs

/-- Embedding of `str.startswith` at the `String` level. -/
def lineStarts (p line : String) : Bool := startsList p.data line.data

/-- Embedding of `str.endswith` at the `String` level (used for the `.tf` filter). -/
def strEnds (p s : String) : Bool := startsList p.data.reverse s.data.reverse

/-- Strip a literal keyword from the front of the text, or fail. -/
def dropKey : List Char → List Char → Option (List Char)
  | [], s => some s
  | _ :: _, [] => none
  | k :: ks, c :: cs => if k = c then dropKey ks cs else none

/-- Embedding of the regex fragment `(.*)"` under Python semantics: `.` does not
match a newline and the group is greedy, so the captured group is everything up
to the last `"` occurring before any newline; fails when there is no such `"`. -/
def greedyQuotedGroup (t : List Char) : Option (List Char) :=
  match (t.takeWhile fun c => c ≠ '\n').reverse.dropWhile (fun c => c ≠ '"') with
  | [] => none
  | _ :: rest => some rest.reverse

/-- Embedding of `\s*c` for a non-space literal `c`: the greedy space run is
forced, then the literal must follow. Returns the remaining text. -/
def eatSpacesChar (expect : Char) (t : List Char) : Option (List Char) :=
  match t.dropWhile isPySpace with
  | [] => none
  | c :: rest => if c = expect then some rest else none

/-- Backtracking loop for `[^\d]*(.*)"`: `consumedRev` holds (reversed) the
characters currently consumed by the greedy `[^\d]*`; on failure of the rest of
the pattern one character is given back at a time. -/
def versionBack : List Char → List Char → Option (List Char)
  | [], rest => greedyQuotedGroup rest
  | c :: cs, rest =>
    match greedyQuotedGroup rest with
    | some v => some v
    | none => versionBack cs (c :: rest)

/-- Embedding of `[^\d]*(?P<VERSION>.*)"`: the greedy non-digit run is tried
longest-first, then the quoted-group tail. -/
def versionGroup (t : List Char) : Option (List Char) :=
  versionBack ((t.takeWhile fun c => ¬ c.isDigit).reverse)
    (t.dropWhile fun c => ¬ c.isDigit)

/-- Embedding of `\s*=\s*"` followed by the captured group and closing quote;
`strip` selects the version pattern's `[^\d]*` prefix strip. -/
def assignTail (strip : Bool) (t : List Char) : Option (List Char) :=
  (eatSpacesChar '=' t).bind fun t1 =>
  (eatSpacesChar '"' t1).bind fun t2 =>
  if strip then versionGroup t2 else greedyQuotedGroup t2

/-- Embedding of `re.match('.*\b<key>...', line)`: the leading greedy `.*`
makes Python try the rightmost viable occurrence of `<key>` first, `.` never
crosses a newline, and `\b` requires the previous character (if any) to be a
non-word character. -/
def keywordScan (key : List Char) (strip : Bool) : Option Char → List Char → Option (List Char)
  | _, [] => none
  | prev, c :: rest =>
    let here :=
      if (match prev with | none => true | some p => ¬ isPyWordChar p) then
        match dropKey key (c :: rest) with
        | some t => assignTail strip t
        | none => none
      else none
    let later := if c = '\n' then none else keywordScan key strip (some c) rest
    match later with
    | some v => some v
    | none => here

/-- Embedding of `re.match('.*\bsource\s*=\s*"(?P<LINK>.*)"', line)`,
returning the captured `LINK` group. -/
def matchSourceLine (line : String) : Option String :=
  (keywordScan "source".data false none line.data).map String.mk

/-- Embedding of `re.match('.*\bversion\s*=\s*"[^\d]*(?P<VERSION>.*)"', line)`,
returning the captured `VERSION` group. -/
def matchVersionLine (line : String) : Option String :=
  (keywordScan "version".data true none line.data).map String.mk

/-- The `ModuleDownload` class: `module_link` and `version` start as Python
`None` and are set during scanning. -/
structure ModuleDownload where
  source_dir : String
  module_link : Option String := none
  version : Option String := none
deriving DecidableEq

/-- Python's f-string rendering of an optional string: `None` prints as
`"None"`. -/
def optStr : Option String → String
  | none => "None"
  | some s => s

/-- The `address` property: `f'{self.module_link}:{self.version}'`. -/
def ModuleDownload.address (m : ModuleDownload) : String :=
  optStr m.module_link ++ ":" ++ optStr m.version

/-- The log statements issued by `find_modules` and `_download_module`,
modelled as structured events. -/
inductive LogEvent where
  | warnNoSource (source_dir : String)
  | warnSkipFile (file : String) (err : String)
  | infoDownloading (address : String)
  | warnFailedDownload (address : String)
  | warnUnableToLoad (address : String) (err : String)
deriving DecidableEq

/-- Scanner state of the line loop in `find_modules`: the `in_module` flag and
the current `ModuleDownload` under construction (`curr_md`). -/
structure ScanState where
  inModule : Bool
  curr : Option ModuleDownload
deriving DecidableEq

/-- Full accumulator of the line loop: state, `modules_found`, and the log. -/
abbrev ScanAcc := ScanState × List ModuleDownload × List LogEvent

/-- One iteration of the line loop in `find_modules`. While `in_module` is
true, `curr` is always set; the `none` fallback of the inner match is
unreachable and kept only to make the function total. -/
def scanLine (dir : String) (acc : ScanAcc) (line : String) : ScanAcc :=
  let (st, found, logs) := acc
  if st.inModule then
    if lineStarts "\x7d" line then
      match st.curr with
      | some md =>
        match md.module_link with
        | none => (⟨false, none⟩, found, logs ++ [.warnNoSource md.source_dir])
        | some _ => (⟨false, none⟩, found ++ [md], logs)
      | none => (⟨false, none⟩, found, logs)
    else
      match matchSourceLine line with
      | some l => (⟨true, st.curr.map fun md => { md with module_link := some l }⟩, found, logs)
      | none =>
        match matchVersionLine line with
        | some v => (⟨true, st.curr.map fun md => { md with version := some v }⟩, found, logs)
        | none => acc
  else
    if lineStarts "module" line then (⟨true, some ⟨dir, none, none⟩⟩, found, logs)
    else acc

/-- Run the line loop over a list of lines. -/
def scanLinesAcc (dir : String) (lines : List String) (acc : ScanAcc) : ScanAcc :=
  lines.foldl (scanLine dir) acc

/-- Scan one file's lines, threading the global `modules_found` list and log;
the scanner state is per-file (reset before, discarded after). -/
def scanFileLines (dir : String) (lines : List String)
    (found : List ModuleDownload) (logs : List LogEvent) :
    List ModuleDownload × List LogEvent :=
  let r := scanLinesAcc dir lines (⟨false, none⟩, found, logs)
  (r.2.1, r.2.2)

/-- Outcome of `open()` plus line iteration for one file: `failure` is an
exception raised by `open()` itself (e.g. `FileNotFoundError`); `ok lines de`
yields `lines` and then, when `de = some err`, raises a `UnicodeDecodeError`
that the `except` clause inside the file loop catches. -/
inductive OpenResult where
  | failure (err : String)
  | ok (lines : List String) (decodeErr : Option String)
deriving DecidableEq

/-- One file presented to `find_modules` by the directory walk: the directory
it lives in (`os.path.dirname` of its path), its file name, and what opening
and reading it produces. -/
structure TfFile where
  dir : String
  name : String
  openResult : OpenResult
deriving DecidableEq

/-- The file loop of `find_modules`. The `open()` call sits outside the
`try`/`except`, so a `failure` open result propagates as a fatal error,
whereas a decode error during line iteration is caught: the rest of the file
is skipped, a warning is logged, and scanning continues. -/
def find_modules_aux :
    List TfFile → List ModuleDownload → List LogEvent →
    Except String (List ModuleDownload × List LogEvent)
  | [], found, logs => .ok (found, logs)
  | f :: fs, found, logs =>
    if strEnds ".tf" f.name then
      match f.openResult with
      | .failure e => .error e
      | .ok lines de =>
        let r := scanFileLines f.dir lines found logs
        find_modules_aux fs r.1
          (match de with
           | some e => r.2 ++ [.warnSkipFile f.name e]
           | none => r.2)
    else find_modules_aux fs found logs

/-- The function `find_modules`: scan every `.tf` file of the walked tree. -/
def find_modules (files : List TfFile) :
    Except String (List ModuleDownload × List LogEvent) :=
  find_modules_aux files [] []

/-- The default eligibility predicate `should_download`. -/
def should_download (path : String) : Bool :=
  !(lineStarts "./" path || lineStarts "../" path || lineStarts "/" path)

/-- Insertion into a Python dict rendered as an insertion-ordered association
list: assigning to an existing key overwrites in place, a new key is appended. -/
def dinsert {α : Type} [DecidableEq α] (k : α) (v : ModuleDownload)
    (d : List (α × ModuleDownload)) : List (α × ModuleDownload) :=
  if d.any fun p => p.1 = k then d.map fun p => if p.1 = k then (k, v) else p
  else d ++ [(k, v)]

/-- Python dict key membership. -/
def dcontains {α : Type} [DecidableEq α] (d : List (α × ModuleDownload)) (k : α) : Bool :=
  d.any fun p => p.1 = k

/-- The dict comprehension `{m.address: m for m in modules_to_load}.values()`:
last-seen value wins, first-seen position kept, values in insertion order. -/
def distinctModules (ms : List ModuleDownload) : List ModuleDownload :=
  (ms.foldl (fun d m => dinsert m.address m d) []).map (·.2)

/-- A batch: a Python dict from `module_link` to `ModuleDownload`. -/
abbrev Batch := List (Option String × ModuleDownload)

/-- Replace the element at an index by `f` of it (used for
`batches[found + 1][m.module_link] = m`). -/
def modifyAt {α : Type} (f : α → α) : Nat → List α → List α
  | _, [] => []
  | 0, b :: bs => f b :: bs
  | n + 1, b :: bs => b :: modifyAt f n bs

/-- One iteration of the batch-building loop of `load_tf_modules`. The Python
`found` variable equals the length of the maximal prefix of batches containing
`m.module_link`, minus one; `found == len(batches) - 1` appends a fresh batch,
otherwise the module is stored into batch `found + 1`. -/
def planStep (batches : List Batch) (m : ModuleDownload) : List Batch :=
  let k := (batches.takeWhile fun b => dcontains b m.module_link).length
  if k = batches.length then batches ++ [[(m.module_link, m)]]
  else modifyAt (dinsert m.module_link m) k batches

/-- The batch-building loop over the deduplicated modules. -/
def planBatches (ms : List ModuleDownload) : List Batch :=
  ms.foldl planStep []

/-- Embedding of `dict.values()` of a batch. -/
def batchVals (b : Batch) : List ModuleDownload := b.map (·.2)

/-- All modules stored across a list of batches, in order. -/
def allVals (batches : List Batch) : List ModuleDownload :=
  (batches.map batchVals).flatten

/-- Result of `content.loaded()` on a loader result. -/
structure Content where
  loaded : Bool
deriving DecidableEq

/-- Outcome of one `module_loader_registry.load` call: a returned value
(possibly Python `None`) or a raised exception. -/
inductive LoadResult where
  | ret (content : Option Content)
  | exn (err : String)
deriving DecidableEq

/-- The Loader collaborator: arguments are `(source_dir, module_link,
version)`. -/
abbrev Loader := String → String → String → LoadResult

/-- One `load` invocation as observed at the Loader boundary. -/
structure LoadCall where
  target_dir : String
  link : String
  version : String
deriving DecidableEq

/-- The version argument of the `load` call:
`"latest" if not m.version else m.version` (both `None` and `""` are falsy). -/
def effVersion : Option String → String
  | none => "latest"
  | some s => if s = "" then "latest" else s

/-- Embedding of `_download_module` for one module: the calls it makes to the Loader and
the log it produces. The `try`/`except Exception` around the `load` call is
embedded in the match on the loader's outcome, so an exception becomes a
warning instead of propagating. A module whose `module_link` is `None` never
reaches this point in the source. -/
def taskRun (loader : Loader) (pred : String → Bool) (m : ModuleDownload) :
    List LoadCall × List LogEvent :=
  match m.module_link with
  | some l =>
    if pred l then
      let v := effVersion m.version
      let logs0 := [LogEvent.infoDownloading m.address]
      match loader m.source_dir l v with
      | .ret none => ([⟨m.source_dir, l, v⟩], logs0 ++ [.warnFailedDownload m.address])
      | .ret (some c) =>
        ([⟨m.source_dir, l, v⟩],
          if c.loaded then logs0 else logs0 ++ [.warnFailedDownload m.address])
      | .exn e => ([⟨m.source_dir, l, v⟩], logs0 ++ [.warnUnableToLoad m.address e])
    else ([], [])
  | none => ([], [])

/-- The statically determined `load` call of one module (made exactly when the
link is set and eligible). -/
def loadCallOf (pred : String → Bool) (m : ModuleDownload) : Option LoadCall :=
  match m.module_link with
  | some l => if pred l then some ⟨m.source_dir, l, effVersion m.version⟩ else none
  | none => none

/-- The schedule of Loader invocations produced by `load_tf_modules` for a
given module list: one inner list per batch. Batches run strictly in order
(`futures.wait(..., return_when=ALL_COMPLETED)` joins every task of a batch
before the next batch starts), so only calls within one inner list are ever in
flight simultaneously. -/
def loadSchedule (pred : String → Bool) (ms : List ModuleDownload) :
    List (List LoadCall) :=
  (planBatches (distinctModules ms)).map fun b =>
    (batchVals b).filterMap (loadCallOf pred)

/-- The executor loop over the batches: submit `_download_module` for every
value of every batch, in batch order, collecting all Loader calls and logs.
The function is total: no individual task failure escapes. -/
def execBatches (loader : Loader) (pred : String → Bool) (batches : List Batch) :
    List LoadCall × List LogEvent :=
  let runs := (batches.map fun b => (batchVals b).map (taskRun loader pred)).flatten
  ((runs.map (·.1)).flatten, (runs.map (·.2)).flatten)

/-- The full `load_tf_modules` pipeline: scan, deduplicate, plan, execute. -/
def load_tf_modules (files : List TfFile) (loader : Loader) (pred : String → Bool) :
    Except String (List LoadCall × List LogEvent) :=
  (find_modules files).map fun r =>
    let e := execBatches loader pred (planBatches (distinctModules r.1))
    (e.1, r.2 ++ e.2)

/-! ### Generic helper lemmas -/

/-- A fold preserves any invariant its step preserves. -/
theorem foldl_inv {α β : Type} (f : β → α → β) (P : β → Prop)
    (hstep : ∀ s a, P s → P (f s a)) :
    ∀ (l : List α) (init : β), P init → P (l.foldl f init)
  | [], _, h0 => h0
  | a :: l, init, h0 => foldl_inv f P hstep l (f init a) (hstep init a h0)

theorem dcontains_iff {α : Type} [DecidableEq α] (d : List (α × ModuleDownload)) (k : α) :
    dcontains d k = true ↔ k ∈ d.map Prod.fst := by
  simp [dcontains, List.any_eq_true, List.mem_map]

theorem keys_dinsert_of_contains {α : Type} [DecidableEq α]
    {d : List (α × ModuleDownload)} {k : α} (v : ModuleDownload)
    (h : dcontains d k = true) :
    (dinsert k v d).map Prod.fst = d.map Prod.fst := by
  have : (d.any fun p => p.1 = k) = true := h
  simp only [dinsert, this, if_true, List.map_map]
  apply List.map_congr_left
  intro p _
  by_cases hp : p.1 = k <;> simp [hp]

theorem keys_dinsert_of_not_contains {α : Type} [DecidableEq α]
    {d : List (α × ModuleDownload)} {k : α} (v : ModuleDownload)
    (h : dcontains d k = false) :
    (dinsert k v d).map Prod.fst = d.map Prod.fst ++ [k] := by
  have : (d.any fun p => p.1 = k) = false := h
  simp [dinsert, this]

theorem batchVals_dinsert_of_not_contains {d : Batch} {k : Option String}
    (v : ModuleDownload) (h : dcontains d k = false) :
    batchVals (dinsert k v d) = batchVals d ++ [v] := by
  have : (d.any fun p => p.1 = k) = false := h
  simp [dinsert, this, batchVals]

theorem mem_dinsert {α : Type} [DecidableEq α]
    {d : List (α × ModuleDownload)} {k : α} {v : ModuleDownload} {p : α × ModuleDownload}
    (hp : p ∈ dinsert k v d) : p ∈ d ∨ p = (k, v) := by
  by_cases h : (d.any fun q => q.1 = k) = true
  · simp only [dinsert, h, if_true, List.mem_map] at hp
    obtain ⟨q, hq, rfl⟩ := hp
    by_cases hqk : q.1 = k
    · simp [hqk]
    · simp [hqk]; exact Or.inl hq
  · simp only [dinsert, h, if_false, List.mem_append, List.mem_singleton] at hp
    simpa using hp

theorem mem_modifyAt {α : Type} (f : α → α) :
    ∀ (k : Nat) (l : List α) (b : α), b ∈ modifyAt f k l → b ∈ l ∨ ∃ a ∈ l, b = f a := by
  intro k l
  induction l generalizing k with
  | nil => intro b h; simp [modifyAt] at h
  | cons a l ih =>
    intro b h
    cases k with
    | zero =>
      simp only [modifyAt] at h
      rcases List.mem_cons.mp h with h | h
      · exact Or.inr ⟨a, List.mem_cons_self a l, h⟩
      · exact Or.inl (List.mem_cons_of_mem _ h)
    | succ k =>
      simp only [modifyAt] at h
      rcases List.mem_cons.mp h with h | h
      · exact Or.inl (h ▸ List.mem_cons_self a l)
      · rcases ih k b h with h' | ⟨c, hc, rfl⟩
        · exact Or.inl (List.mem_cons_of_mem _ h')
        · exact Or.inr ⟨c, List.mem_cons_of_mem _ hc, rfl⟩

/-- The element right after the prefix taken by `takeWhile` fails the
predicate. -/
theorem takeWhile_stop {α : Type} (p : α → Bool) :
    ∀ (l : List α) (h : (l.takeWhile p).length < l.length),
      p (l.get ⟨(l.takeWhile p).length, h⟩) = false
  | a :: l, h => by
    by_cases hp : p a
    · simp only [List.takeWhile, hp] at h ⊢
      exact takeWhile_stop p l (Nat.lt_of_succ_lt_succ h)
    · simp only [List.takeWhile, Bool.not_eq_true] at hp
      simp [List.takeWhile, hp]

/-! ### Batch planner invariants -/

/-- The invariant of one batch: its keys are pairwise distinct (it is a dict)
and every stored module's `module_link` equals its key. -/
def goodBatch (b : Batch) : Prop :=
  (b.map Prod.fst).Nodup ∧ ∀ p ∈ b, p.1 = p.2.module_link

theorem goodBatch_dinsert {b : Batch} (m : ModuleDownload)
    (hb : goodBatch b) : goodBatch (dinsert m.module_link m b) := by
  obtain ⟨hnd, hkey⟩ := hb
  by_cases h : dcontains b m.module_link
  · refine ⟨?_, ?_⟩
    · rw [keys_dinsert_of_contains m h]; exact hnd
    · intro p hp
      rcases mem_dinsert hp with hp' | rfl
      · exact hkey p hp'
      · rfl
  · have h' : dcontains b m.module_link = false := by
      simpa using h
    refine ⟨?_, ?_⟩
    · rw [keys_dinsert_of_not_contains m h']
      refine List.Nodup.append hnd (List.nodup_singleton _) ?_
      intro k hk hk'
      rcases List.mem_singleton.mp hk' with rfl
      exact absurd ((dcontains_iff b m.module_link).mpr hk) (by simp [h'])
    · intro p hp
      rcases mem_dinsert hp with hp' | rfl
      · exact hkey p hp'
      · rfl

theorem planStep_good {batches : List Batch} (m : ModuleDownload)
    (h : ∀ b ∈ batches, goodBatch b) : ∀ b ∈ planStep batches m, goodBatch b := by
  intro b hb
  simp only [planStep] at hb
  by_cases hk : (batches.takeWhile fun b => dcontains b m.module_link).length = batches.length
  · simp only [hk, if_true] at hb
    rcases List.mem_append.mp hb with hb' | hb'
    · exact h b hb'
    · rcases List.mem_singleton.mp hb' with rfl
      exact ⟨by simp, by simp⟩
  · simp only [hk, if_false] at hb
    rcases mem_modifyAt _ _ _ _ hb with hb' | ⟨c, hc, rfl⟩
    · exact h b hb'
    · exact goodBatch_dinsert m (h c hc)

/-- Every batch the planner ever produces satisfies the dict invariant. -/
theorem planBatches_good (ms : List ModuleDownload) :
    ∀ b ∈ planBatches ms, goodBatch b :=
  foldl_inv planStep (fun s => ∀ b ∈ s, goodBatch b)
    (fun _ m h => planStep_good m h) ms [] (by simp)

/-- In a good batch, the stored modules have pairwise distinct links. -/
theorem goodBatch_links_pairwise {b : Batch} (hb : goodBatch b) :
    b.Pairwise fun p q => p.2.module_link ≠ q.2.module_link := by
  obtain ⟨hnd, hkey⟩ := hb
  have h1 : b.Pairwise fun p q => p.1 ≠ q.1 := (List.pairwise_map).mp hnd
  exact h1.imp_of_mem fun {p q} hp hq hne => by
    rw [← hkey p hp, ← hkey q hq]; exact hne

/-! ### Batch planner: the multiset of placed modules -/

theorem allVals_append (l1 l2 : List Batch) :
    allVals (l1 ++ l2) = allVals l1 ++ allVals l2 := by
  simp [allVals]

theorem allVals_cons (b : Batch) (bs : List Batch) :
    allVals (b :: bs) = batchVals b ++ allVals bs := by
  simp [allVals]

/-- Modifying the batch at an index so that its values gain exactly `[m]`
extends the planner's value multiset by exactly `[m]`. -/
theorem allVals_modifyAt_perm (f : Batch → Batch) (m : ModuleDownload) :
    ∀ (l : List Batch) (k : Nat) (h : k < l.length),
      batchVals (f (l.get ⟨k, h⟩)) = batchVals (l.get ⟨k, h⟩) ++ [m] →
      (allVals (modifyAt f k l)).Perm (allVals l ++ [m]) := by
  intro l
  induction l with
  | nil => intro k h; cases h
  | cons b bs ih =>
    intro k h hv
    cases k with
    | zero =>
      simp only [List.get] at hv
      simp only [modifyAt, allVals_cons, hv]
      rw [List.append_assoc, List.append_assoc]
      exact List.Perm.append_left _ List.perm_append_comm
    | succ k =>
      simp only [List.get] at hv
      have h' : k < bs.length := Nat.lt_of_succ_lt_succ h
      simp only [modifyAt, allVals_cons]
      rw [List.append_assoc]
      exact List.Perm.append_left _ (ih k h' hv)

/-- One planner step adds exactly the new module to the multiset of placed
modules. -/
theorem planStep_vals_perm (batches : List Batch) (m : ModuleDownload) :
    (allVals (planStep batches m)).Perm (allVals batches ++ [m]) := by
  simp only [planStep]
  by_cases hk : (batches.takeWhile fun b => dcontains b m.module_link).length = batches.length
  · simp only [hk, if_true, allVals_append]
    apply List.Perm.append_left
    simp [allVals, batchVals]
  · simp only [hk, if_false]
    have hlt : (batches.takeWhile fun b => dcontains b m.module_link).length < batches.length :=
      Nat.lt_of_le_of_ne (List.takeWhile_sublist _).length_le hk
    apply allVals_modifyAt_perm
    apply batchVals_dinsert_of_not_contains
    exact takeWhile_stop _ batches hlt

/-- The planner only rearranges: the multiset of all placed modules equals the
input list. -/
theorem planBatches_vals_perm (ms : List ModuleDownload) :
    (allVals (planBatches ms)).Perm ms := by
  suffices h : ∀ (ms : List ModuleDownload) (init : List Batch),
      (allVals (ms.foldl planStep init)).Perm (allVals init ++ ms) by
    simpa [planBatches, allVals] using h ms []
  intro ms
  induction ms with
  | nil => intro init; simp
  | cons m ms ih =>
    intro init
    have h1 := ih (planStep init m)
    have h2 := (planStep_vals_perm init m).append_right ms
    have h3 : (allVals init ++ [m]) ++ ms = allVals init ++ (m :: ms) := by simp
    exact (h1.trans (h3 ▸ h2 : _))

/-! ### Executor lemmas -/

/-- A `load` call recorded by `loadCallOf` carries the module's own link. -/
theorem loadCallOf_link {pred : String → Bool} {m : ModuleDownload} {c : LoadCall}
    (h : loadCallOf pred m = some c) : m.module_link = some c.link := by
  cases hml : m.module_link with
  | none => simp [loadCallOf, hml] at h
  | some l =>
    simp only [loadCallOf, hml] at h
    by_cases hp : pred l
    · simp only [hp, if_true, Option.some.injEq] at h
      subst h; rfl
    · simp [hp] at h

/-- Distinct links in a module list stay distinct across the `load` calls the
executor derives from it. -/
theorem filterMap_loadCall_links_nodup (pred : String → Bool)
    {vs : List ModuleDownload}
    (h : vs.Pairwise fun m1 m2 => m1.module_link ≠ m2.module_link) :
    ((vs.filterMap (loadCallOf pred)).map LoadCall.link).Nodup := by
  induction vs with
  | nil => simp
  | cons m vs ih =>
    rcases List.pairwise_cons.mp h with ⟨hm, hvs⟩
    simp only [List.filterMap_cons]
    cases hc : loadCallOf pred m with
    | none => exact ih hvs
    | some c =>
      simp only [List.map_cons, List.nodup_cons]
      refine ⟨?_, ih hvs⟩
      intro hmem
      rcases List.mem_map.mp hmem with ⟨c', hc', hlink⟩
      rcases List.mem_filterMap.mp hc' with ⟨m', hm', hc2⟩
      have h1 := loadCallOf_link hc
      have h2 := loadCallOf_link hc2
      exact hm m' hm' (by rw [h1, h2, hlink])

/-- The calls one task makes do not depend on the loader's outcome. -/
theorem taskRun_calls (loader : Loader) (pred : String → Bool) (m : ModuleDownload) :
    (taskRun loader pred m).1 = (loadCallOf pred m).toList := by
  cases hml : m.module_link with
  | none => simp [taskRun, loadCallOf, hml]
  | some l =>
    by_cases hp : pred l
    · simp only [taskRun, loadCallOf, hml, hp, if_true]
      cases loader m.source_dir l (effVersion m.version) with
      | ret c => cases c <;> simp
      | exn e => simp
    · simp [taskRun, loadCallOf, hml, hp]

/-! ### C1 -/

/-- C1: for every deduplicated input sequence of references, no single batch
produced by the batch planner holds two references with equal `module_link`:
each batch is a dict keyed by link, and a reference is only ever stored under
a link not yet occupied at insertion time, so the entries of any one batch
have pairwise distinct links. -/
theorem planBatches_no_link_collision (xs : List ModuleDownload) :
    ∀ b ∈ planBatches (distinctModules xs),
      b.Pairwise fun p q => p.2.module_link ≠ q.2.module_link := by
  intro b hb
  exact goodBatch_links_pairwise (planBatches_good (distinctModules xs) b hb)

/-- Witness for C1 at a concrete input: two references sharing the link `"a"`
plus one with link `"b"`. -/
theorem planBatches_no_link_collision_witness :
    [(some "a", (⟨"d", some "a", none⟩ : ModuleDownload)),
     (some "b", (⟨"d", some "b", none⟩ : ModuleDownload))] ∈
      planBatches (distinctModules
        [⟨"d", some "a", none⟩, ⟨"d", some "a", some "1"⟩, ⟨"d", some "b", none⟩]) ∧
    ([(some "a", (⟨"d", some "a", none⟩ : ModuleDownload)),
      (some "b", (⟨"d", some "b", none⟩ : ModuleDownload))] : Batch).Pairwise
      (fun p q => p.2.module_link ≠ q.2.module_link) :=
  ⟨by decide,
   planBatches_no_link_collision
     [⟨"d", some "a", none⟩, ⟨"d", some "a", some "1"⟩, ⟨"d", some "b", none⟩]
     _ (by decide)⟩

/-! ### C2 -/

/-- C2: for every deduplicated input sequence of references, the multiset of
references stored across all batches produced by the planner is a permutation
of the input: every deduplicated reference lands in exactly one batch, none is
lost and none is duplicated. -/
theorem planBatches_union_eq_input (xs : List ModuleDownload) :
    (allVals (planBatches (distinctModules xs))).Perm (distinctModules xs) :=
  planBatches_vals_perm (distinctModules xs)

/-! ### C3 -/

/-- C3: the executor runs the batches strictly in order, with
`futures.wait(..., return_when=ALL_COMPLETED)` joining every task of a batch
before the next batch starts; this barrier structure is modelled by the outer
list of `loadSchedule`, so the Loader invocations that can ever be in flight
simultaneously are exactly those in one inner list. Within any such concurrent
wave the links are pairwise distinct, hence no two fetches for the same module
link are ever in flight simultaneously. -/
theorem loadSchedule_concurrent_links_nodup (pred : String → Bool)
    (ms : List ModuleDownload) :
    ∀ phase ∈ loadSchedule pred ms, (phase.map LoadCall.link).Nodup := by
  intro phase hphase
  rcases List.mem_map.mp hphase with ⟨b, hb, rfl⟩
  have hgood := planBatches_good (distinctModules ms) b hb
  apply filterMap_loadCall_links_nodup
  have h1 := goodBatch_links_pairwise hgood
  exact (List.pairwise_map).mpr h1

/-- Witness for C3 at a concrete input: two references to link `"a"` at
different versions produce two waves; the first wave is a singleton with a
trivially collision-free link list. -/
theorem loadSchedule_concurrent_links_nodup_witness :
    [(⟨"d", "a", "latest"⟩ : LoadCall)] ∈
      loadSchedule (fun _ => true) [⟨"d", some "a", none⟩, ⟨"d", some "a", some "1"⟩] ∧
    (([(⟨"d", "a", "latest"⟩ : LoadCall)]).map LoadCall.link).Nodup :=
  ⟨by decide,
   loadSchedule_concurrent_links_nodup (fun _ => true)
     [⟨"d", some "a", none⟩, ⟨"d", some "a", some "1"⟩] _ (by decide)⟩

/-! ### C6 -/

/-- C6: an exception raised by the Loader is caught at the task boundary
(`except Exception` inside `_download_module`), logged as a warning carrying
the reference's address, and does not propagate: whatever the loader does,
every reference of every batch whose link is set and eligible still has `load`
invoked (its call appears in the executor's call list), and a raising task
contributes exactly its warning to the log. The executor itself is a total
function: no individual failure aborts it. -/
theorem execBatches_fault_isolation (loader : Loader) (pred : String → Bool)
    (batches : List Batch) (m : ModuleDownload) (l : String) (e : String)
    (hm : m ∈ allVals batches) (hl : m.module_link = some l) (hp : pred l = true) :
    (⟨m.source_dir, l, effVersion m.version⟩ : LoadCall) ∈ (execBatches loader pred batches).1 ∧
    (loader m.source_dir l (effVersion m.version) = .exn e →
      LogEvent.warnUnableToLoad m.address e ∈ (execBatches loader pred batches).2) := by
  rcases List.mem_flatten.mp hm with ⟨vs, hvs, hmvs⟩
  rcases List.mem_map.mp hvs with ⟨b, hb, rfl⟩
  constructor
  · apply List.mem_flatten.mpr
    refine ⟨(taskRun loader pred m).1, ?_, ?_⟩
    · apply List.mem_map.mpr
      refine ⟨taskRun loader pred m, ?_, rfl⟩
      apply List.mem_flatten.mpr
      exact ⟨(batchVals b).map (taskRun loader pred), List.mem_map.mpr ⟨b, hb, rfl⟩,
        List.mem_map.mpr ⟨m, hmvs, rfl⟩⟩
    · rw [taskRun_calls, loadCallOf, hl]
      simp [hp]
  · intro hexn
    apply List.mem_flatten.mpr
    refine ⟨(taskRun loader pred m).2, ?_, ?_⟩
    · apply List.mem_map.mpr
      refine ⟨taskRun loader pred m, ?_, rfl⟩
      apply List.mem_flatten.mpr
      exact ⟨(batchVals b).map (taskRun loader pred), List.mem_map.mpr ⟨b, hb, rfl⟩,
        List.mem_map.mpr ⟨m, hmvs, rfl⟩⟩
    · simp only [taskRun, hl, hp, if_true, hexn]
      simp

/-- Witness for C6 at a concrete input: a loader that raises for everything;
the second module of the second batch still has its call recorded, and the
raising task's warning carries its address. -/
theorem execBatches_fault_isolation_witness :
    (⟨"d", "b", "latest"⟩ : LoadCall) ∈
      (execBatches (fun _ _ _ => .exn "boom") (fun _ => true)
        [[(some "a", ⟨"d", some "a", none⟩)], [(some "b", ⟨"d", some "b", none⟩)]]).1 ∧
    LogEvent.warnUnableToLoad (ModuleDownload.address ⟨"d", some "b", none⟩) "boom" ∈
      (execBatches (fun _ _ _ => .exn "boom") (fun _ => true)
        [[(some "a", ⟨"d", some "a", none⟩)], [(some "b", ⟨"d", some "b", none⟩)]]).2 := by
  have h := execBatches_fault_isolation (fun _ _ _ => .exn "boom") (fun _ => true)
    [[(some "a", ⟨"d", some "a", none⟩)], [(some "b", ⟨"d", some "b", none⟩)]]
    ⟨"d", some "b", none⟩ "b" "boom" (by decide) rfl rfl
  exact ⟨h.1, h.2 rfl⟩

/-! ### Scanner lemmas -/

/-- One line either leaves `modules_found` unchanged or appends a single
module whose link is set (the only appending branch is the block close with
`module_link` not `None`). -/
theorem scanLine_found_extend (dir : String) (acc : ScanAcc) (line : String) :
    (scanLine dir acc line).2.1 = acc.2.1 ∨
    ∃ md l, md.module_link = some l ∧ (scanLine dir acc line).2.1 = acc.2.1 ++ [md] := by
  obtain ⟨st, found, logs⟩ := acc
  simp only [scanLine]
  by_cases h1 : st.inModule
  · simp only [h1, if_true]
    by_cases h2 : lineStarts "\x7d" line
    · simp only [h2, if_true]
      cases hc : st.curr with
      | none => left; rfl
      | some md =>
        cases hml : md.module_link with
        | none => left; simp [hml]
        | some l => right; exact ⟨md, l, hml, by simp [hml]⟩
    · simp only [h2, if_false]
      cases matchSourceLine line with
      | some l => left; rfl
      | none =>
        cases matchVersionLine line with
        | some v => left; rfl
        | none => left; rfl
  · simp only [h1, if_false]
    by_cases h2 : lineStarts "module" line
    · simp only [h2, if_true]; left; rfl
    · simp only [h2, if_false]; left; rfl

/-- Scanning a file's lines preserves the invariant that every module found
so far has its link set. -/
theorem scanFileLines_link_set (dir : String) (lines : List String)
    (found : List ModuleDownload) (logs : List LogEvent)
    (h : ∀ m ∈ found, m.module_link ≠ none) :
    ∀ m ∈ (scanFileLines dir lines found logs).1, m.module_link ≠ none := by
  have key : ∀ m ∈ (scanLinesAcc dir lines (⟨false, none⟩, found, logs)).2.1,
      m.module_link ≠ none := by
    apply foldl_inv (scanLine dir) (fun acc => ∀ m ∈ acc.2.1, m.module_link ≠ none)
    · intro acc line hacc m hm
      rcases scanLine_found_extend dir acc line with heq | ⟨md, l, hml, heq⟩
      · exact hacc m (heq ▸ hm)
      · rw [heq] at hm
        rcases List.mem_append.mp hm with hm' | hm'
        · exact hacc m hm'
        · rcases List.mem_singleton.mp hm' with rfl
          simp [hml]
    · exact h
  exact key

/-- While inside a block, a line that is not a block close leaves
`modules_found` and the log unchanged and stays inside the block. -/
theorem scanLine_inblock_nonclose (dir line : String) (st : ScanState)
    (found : List ModuleDownload) (logs : List LogEvent)
    (h1 : st.inModule = true) (h2 : lineStarts "\x7d" line = false) :
    ∃ st', scanLine dir (st, found, logs) line = (st', found, logs) ∧
      st'.inModule = true := by
  obtain ⟨sIn, sCurr⟩ := st
  simp only at h1
  subst h1
  simp only [scanLine, if_true, h2, if_false, Bool.false_eq_true]
  cases matchSourceLine line with
  | some l => exact ⟨_, rfl, rfl⟩
  | none =>
    cases matchVersionLine line with
    | some v => simp
    | none => simp

/-- Inside a block, lines that neither close the block nor match the version
pattern keep the pending module's `version` and `source_dir` (only the link
can be overwritten by a source line). -/
theorem scanBody_keeps (dir : String) :
    ∀ (body : List String) (found : List ModuleDownload) (logs : List LogEvent)
      (md : ModuleDownload),
      (∀ l ∈ body, lineStarts "\x7d" l = false ∧ matchVersionLine l = none) →
      ∃ md', scanLinesAcc dir body (⟨true, some md⟩, found, logs) =
          (⟨true, some md'⟩, found, logs) ∧
        md'.version = md.version ∧ md'.source_dir = md.source_dir := by
  intro body
  induction body with
  | nil => intro found logs md _; exact ⟨md, rfl, rfl, rfl⟩
  | cons line body ih =>
    intro found logs md hb
    obtain ⟨h2, h3⟩ := hb line (List.mem_cons_self _ _)
    have hstep : ∃ md1, scanLine dir (⟨true, some md⟩, found, logs) line =
        (⟨true, some md1⟩, found, logs) ∧
        md1.version = md.version ∧ md1.source_dir = md.source_dir := by
      simp only [scanLine, if_true, h2, if_false, Bool.false_eq_true]
      cases hsrc : matchSourceLine line with
      | some l => exact ⟨{ md with module_link := some l }, by simp, rfl, rfl⟩
      | none => rw [h3]; exact ⟨md, by simp, rfl, rfl⟩
    obtain ⟨md1, hline, hv1, hs1⟩ := hstep
    obtain ⟨md', hrest, hv2, hs2⟩ := ih found logs md1
      (fun l hl => hb l (List.mem_cons_of_mem _ hl))
    refine ⟨md', ?_, by rw [hv2, hv1], by rw [hs2, hs1]⟩
    simpa [scanLinesAcc, hline] using hrest

/-- Inside a block, any run of non-closing lines is silent: nothing is added
to `modules_found`, nothing is logged, and the scanner stays inside. -/
theorem scanBody_silent (dir : String) :
    ∀ (body : List String) (st : ScanState) (found : List ModuleDownload)
      (logs : List LogEvent),
      st.inModule = true → (∀ l ∈ body, lineStarts "\x7d" l = false) →
      ∃ st', scanLinesAcc dir body (st, found, logs) = (st', found, logs) ∧
        st'.inModule = true := by
  intro body
  induction body with
  | nil => intro st found logs h1 _; exact ⟨st, rfl, h1⟩
  | cons line body ih =>
    intro st found logs h1 hb
    obtain ⟨st1, hline, h1'⟩ := scanLine_inblock_nonclose dir line st found logs h1
      (hb line (List.mem_cons_self _ _))
    obtain ⟨st', hrest, h1''⟩ := ih st1 found logs h1'
      (fun l hl => hb l (List.mem_cons_of_mem _ hl))
    exact ⟨st', by simpa [scanLinesAcc, hline] using hrest, h1''⟩

/-! ### C4 -/

/-- C4 as stated is false: the source only discards a block whose
`module_link` is Python `None`, not one whose link is empty. The file below
contains the block `module ... { source = "" }`; its reference is emitted with
`module_link = some ""` (an empty link) and no warning is logged, refuting
"every emitted `ModuleReference` has a non-empty `link`". -/
theorem find_modules_empty_link_counterexample :
    ¬ (∀ (files : List TfFile) (found : List ModuleDownload) (logs : List LogEvent),
        find_modules files = .ok (found, logs) →
        ∀ m ∈ found, ∃ l, m.module_link = some l ∧ l ≠ "") := by
  intro h
  have hrun : find_modules
      [⟨"d", "a.tf", .ok ["module \"m\" \x7b\n", "  source = \"\"\n", "\x7d\n"] none⟩] =
      .ok ([⟨"d", some "", none⟩], []) := by rfl
  have hm := h _ _ _ hrun ⟨"d", some "", none⟩ (List.mem_singleton.mpr rfl)
  obtain ⟨l, hl, hne⟩ := hm
  rcases Option.some.injEq .. ▸ hl with rfl
  exact hne rfl

/-- C4 amended: every `ModuleReference` emitted by the scanner has its `link`
*set* (`module_link ≠ None`); a block that closes with the link never set is
logged and discarded. The link may however be the empty string (from
`source = ""`), so "non-empty" does not hold. -/
theorem find_modules_emitted_link_set (files : List TfFile)
    (found : List ModuleDownload) (logs : List LogEvent)
    (h : find_modules files = .ok (found, logs)) :
    ∀ m ∈ found, m.module_link ≠ none := by
  suffices key : ∀ (fs : List TfFile) (found0 : List ModuleDownload)
      (logs0 : List LogEvent) (found : List ModuleDownload) (logs : List LogEvent),
      (∀ m ∈ found0, m.module_link ≠ none) →
      find_modules_aux fs found0 logs0 = .ok (found, logs) →
      ∀ m ∈ found, m.module_link ≠ none by
    exact key files [] [] found logs (by simp) h
  intro fs
  induction fs with
  | nil =>
    intro found0 logs0 found logs h0 heq
    simp only [find_modules_aux, Except.ok.injEq] at heq
    obtain ⟨h1, _⟩ := Prod.mk.injEq .. ▸ heq
    exact h1 ▸ h0
  | cons f fs ih =>
    intro found0 logs0 found logs h0 heq
    simp only [find_modules_aux] at heq
    by_cases htf : strEnds ".tf" f.name
    · simp only [htf, if_true] at heq
      cases hor : f.openResult with
      | failure e => rw [hor] at heq; cases heq
      | ok lines de =>
        rw [hor] at heq
        exact ih _ _ _ _ (scanFileLines_link_set f.dir lines found0 logs0 h0) heq
    · simp only [htf, if_false, Bool.false_eq_true] at heq
      exact ih _ _ _ _ h0 heq

/-- Witness for C4 (amended) at a concrete input: a normal block with a
source and version. -/
theorem find_modules_emitted_link_set_witness :
    (⟨"d", some "x", some "1.2.3"⟩ : ModuleDownload).module_link ≠ none := by
  refine find_modules_emitted_link_set
    [⟨"d", "main.tf",
      .ok ["module \"m\" \x7b\n", "  source = \"x\"\n", "  version = \"v1.2.3\"\n", "\x7d\n"]
        none⟩]
    [⟨"d", some "x", some "1.2.3"⟩] [] (by rfl) _ (List.mem_singleton.mpr rfl)

/-! ### C5 -/

/-- C5 names a real slip in the code: the `open()` call sits *outside* the
`try`/`except (UnicodeDecodeError, FileNotFoundError)` block, so a file that
cannot be opened (e.g. removed between `os.walk` and `open`) raises straight
through `find_modules` and kills the scan — the dead `FileNotFoundError`
branch of the `except` clause shows skipping such files was the intent. At
the failing input below the scan aborts fatally and the following healthy
file is never scanned, contradicting "that file is skipped, and scanning
continues with the next file; the scan itself never fails fatally". (A decode
failure during line iteration *is* caught, logged and skipped, as the second
conjunct shows.) -/
theorem find_modules_open_failure_is_fatal :
    find_modules
      [⟨"d", "gone.tf", .failure "No such file or directory"⟩,
       ⟨"d", "b.tf", .ok ["module x\n", "  source = \"y\"\n", "\x7d\n"] none⟩] =
      .error "No such file or directory" ∧
    find_modules
      [⟨"d", "bad.tf", .ok [] (some "decode error")⟩,
       ⟨"d", "b.tf", .ok ["module x\n", "  source = \"y\"\n", "\x7d\n"] none⟩] =
      .ok ([⟨"d", some "y", none⟩],
        [.warnSkipFile "bad.tf" "decode error"]) := by
  exact ⟨rfl, rfl⟩

/-! ### C9 -/

/-- C9: scanning a file holding one module block with the lines
`source = "x"` and `version = "v1.2.3"` yields exactly one reference whose
link is `"x"` and whose version is `"1.2.3"` — the regex group
`"[^\d]*(?P<VERSION>.*)"` strips the leading non-digit `v` from the quoted
value — and no warnings. -/
theorem find_modules_source_version_block :
    find_modules
      [⟨"d", "main.tf",
        .ok ["module \"m\" \x7b\n", "  source = \"x\"\n", "  version = \"v1.2.3\"\n", "\x7d\n"]
          none⟩] =
      .ok ([⟨"d", some "x", some "1.2.3"⟩], []) := by
  rfl

/-! ### C10 -/

/-- C10: when a file ends while the scanner is still inside a module block
(the opener was seen, no closing line before end of file), the pending
reference is dropped silently: scanning such a file yields exactly what
scanning its prefix before the block yields — the pending reference is not
emitted and, unlike the missing-source case, no warning is logged for it. -/
theorem unclosed_block_dropped_silently (dir : String) (pre : List String)
    (opening : String) (body : List String)
    (found : List ModuleDownload) (logs : List LogEvent)
    (hpre : (scanLinesAcc dir pre (⟨false, none⟩, found, logs)).1.inModule = false)
    (hop : lineStarts "module" opening = true)
    (hbody : ∀ l ∈ body, lineStarts "\x7d" l = false) :
    scanFileLines dir (pre ++ opening :: body) found logs =
      scanFileLines dir pre found logs := by
  obtain ⟨st1, f1, g1, hA⟩ : ∃ st1 f1 g1,
      scanLinesAcc dir pre (⟨false, none⟩, found, logs) = (st1, f1, g1) :=
    ⟨_, _, _, rfl⟩
  obtain ⟨sIn, sCurr⟩ := st1
  rw [hA] at hpre
  simp only at hpre
  subst hpre
  have hopen : scanLine dir (⟨false, sCurr⟩, f1, g1) opening =
      (⟨true, some ⟨dir, none, none⟩⟩, f1, g1) := by
    simp [scanLine, hop]
  obtain ⟨st', hsil, _⟩ :=
    scanBody_silent dir body ⟨true, some ⟨dir, none, none⟩⟩ f1 g1 rfl hbody
  have hchain : scanLinesAcc dir (pre ++ opening :: body) (⟨false, none⟩, found, logs) =
      (st', f1, g1) := by
    rw [scanLinesAcc, List.foldl_append]
    rw [show List.foldl (scanLine dir) (⟨false, none⟩, found, logs) pre =
        ((⟨false, sCurr⟩ : ScanState), f1, g1) from hA]
    rw [show List.foldl (scanLine dir) ((⟨false, sCurr⟩ : ScanState), f1, g1)
        (opening :: body) =
        List.foldl (scanLine dir) (⟨true, some ⟨dir, none, none⟩⟩, f1, g1) body from by
      rw [List.foldl_cons, hopen]]
    exact hsil
  simp only [scanFileLines, hchain, hA]

/-- Witness for C10 at a concrete input: a file that opens a block, sets a
source, and ends without a closing line emits nothing and logs nothing. -/
theorem unclosed_block_dropped_silently_witness :
    scanFileLines "d" ([] ++ "module \"m\" \x7b\n" :: ["  source = \"x\"\n"]) [] [] =
      ([], []) := by
  rw [unclosed_block_dropped_silently "d" [] "module \"m\" \x7b\n" ["  source = \"x\"\n"]
    [] [] (by rfl) (by rfl) (by decide)]
  rfl

/-! ### C7 -/

/-- A reference the spec calls valid: its link is set and non-empty. -/
def validRef (m : ModuleDownload) : Prop :=
  ∃ l, m.module_link = some l ∧ l ≠ ""

/-- Splitting at a separator absent from both left parts is unambiguous. -/
theorem colon_split :
    ∀ (l1 v1 l2 v2 : List Char), (∀ c ∈ l1, c ≠ ':') → (∀ c ∈ l2, c ≠ ':') →
      l1 ++ ':' :: v1 = l2 ++ ':' :: v2 → l1 = l2 ∧ v1 = v2 := by
  intro l1
  induction l1 with
  | nil =>
    intro v1 l2 v2 _ h2 heq
    cases l2 with
    | nil => simpa using heq
    | cons b l2 =>
      simp only [List.nil_append, List.cons_append, List.cons.injEq] at heq
      exact absurd heq.1.symm (h2 b (List.mem_cons_self _ _))
  | cons a l1 ih =>
    intro v1 l2 v2 h1 h2 heq
    cases l2 with
    | nil =>
      simp only [List.nil_append, List.cons_append, List.cons.injEq] at heq
      exact absurd heq.1 (h1 a (List.mem_cons_self _ _))
    | cons b l2 =>
      simp only [List.cons_append, List.cons.injEq] at heq
      obtain ⟨rfl, heq'⟩ := heq
      obtain ⟨rfl, rfl⟩ := ih v1 l2 v2 (fun c hc => h1 c (List.mem_cons_of_mem _ hc))
        (fun c hc => h2 c (List.mem_cons_of_mem _ hc)) heq'
      exact ⟨rfl, rfl⟩

/-- C7 as stated is false: `address` renders `f'{module_link}:{version}'` and
the `:` separator also occurs inside links, so the key is not injective over
distinct (link, effective-version) identities. The two valid references below,
`(link "a:1", version "2")` and `(link "a", version "1:2")`, have distinct
identities yet the same address `"a:1:2"` (and the version `"1:2"` is
scanner-producible from `version = "v1:2"`). -/
theorem address_injective_counterexample :
    ¬ (∀ m1 m2 : ModuleDownload, validRef m1 → validRef m2 →
        (m1.address = m2.address ↔
          m1.module_link = m2.module_link ∧
            effVersion m1.version = effVersion m2.version)) := by
  intro h
  have hiff := (h ⟨"d", some "a:1", some "2"⟩ ⟨"d", some "a", some "1:2"⟩
    ⟨"a:1", rfl, by decide⟩ ⟨"a", rfl, by decide⟩).mp (by rfl)
  exact absurd hiff.1 (by decide)

/-- C7 amended: the address is the raw pair rendered as `link ++ ":" ++
version` (with an unset version rendered as `"None"`, not `"latest"`); for
references whose links contain no `':'`, two addresses are equal iff the links
and the rendered raw versions are equal. For links containing `':'` (such as
`git::...` sources) injectivity can fail, and the key tracks the raw version,
so the unset and empty versions — both meaning "latest" for the fetch — get
distinct addresses. -/
theorem address_eq_iff_of_colon_free (m1 m2 : ModuleDownload) (l1 l2 : String)
    (h1 : m1.module_link = some l1) (h2 : m2.module_link = some l2)
    (hc1 : ∀ c ∈ l1.data, c ≠ ':') (hc2 : ∀ c ∈ l2.data, c ≠ ':') :
    m1.address = m2.address ↔ l1 = l2 ∧ optStr m1.version = optStr m2.version := by
  constructor
  · intro heq
    have hd := congrArg String.data heq
    simp only [ModuleDownload.address, h1, h2, optStr, String.data_append] at hd
    have hd' : l1.data ++ ':' :: (optStr m1.version).data =
        l2.data ++ ':' :: (optStr m2.version).data := by
      simpa using hd
    obtain ⟨hll, hvv⟩ := colon_split _ _ _ _ hc1 hc2 hd'
    exact ⟨String.ext hll, String.ext hvv⟩
  · rintro ⟨rfl, hv⟩
    simp [ModuleDownload.address, h1, h2, hv]

/-- Witness for C7 (amended) at concrete colon-free references: equal
addresses force equal links and equal rendered versions. -/
theorem address_eq_iff_of_colon_free_witness :
    ("x" : String) = "x" ∧ optStr (some "1") = optStr (some "1") :=
  (address_eq_iff_of_colon_free ⟨"d1", some "x", some "1"⟩ ⟨"d2", some "x", some "1"⟩
    "x" "x" rfl rfl (by decide) (by decide)).mp rfl

/-! ### C8 -/

/-- C8: a reference coming from a block that declared a source but no version
reaches the Loader with the version string `"latest"`: the block leaves
`version = None`, and `_download_module` passes
`"latest" if not m.version else m.version`. For any block whose body lines
never match the version pattern, any module the scanner emits from it makes
exactly the load call `(dir, link, "latest")` when eligible, whatever the
loader does. -/
theorem no_version_block_loads_latest (loader : Loader) (pred : String → Bool)
    (dir opening cl : String) (body : List String) (m : ModuleDownload) (l : String)
    (hop : lineStarts "module" opening = true)
    (hbody : ∀ ln ∈ body, lineStarts "\x7d" ln = false ∧ matchVersionLine ln = none)
    (hcl : lineStarts "\x7d" cl = true)
    (hm : m ∈ (scanFileLines dir (opening :: (body ++ [cl])) [] []).1)
    (hl : m.module_link = some l) (hp : pred l = true) :
    (taskRun loader pred m).1 = [⟨dir, l, "latest"⟩] := by
  have hopen : scanLine dir ((⟨false, none⟩ : ScanState), ([] : List ModuleDownload),
      ([] : List LogEvent)) opening = (⟨true, some ⟨dir, none, none⟩⟩, [], []) := by
    simp [scanLine, hop]
  obtain ⟨md', hbodyrun, hv, hs⟩ := scanBody_keeps dir body [] [] ⟨dir, none, none⟩ hbody
  have hrun : scanFileLines dir (opening :: (body ++ [cl])) [] [] =
      ((scanLine dir (⟨true, some md'⟩, [], []) cl).2.1,
       (scanLine dir (⟨true, some md'⟩, [], []) cl).2.2) := by
    simp only [scanFileLines, scanLinesAcc, List.foldl_cons, List.foldl_append, hopen]
    rw [show List.foldl (scanLine dir) (⟨true, some ⟨dir, none, none⟩⟩, [], []) body =
        (⟨true, some md'⟩, [], []) from hbodyrun]
    simp [List.foldl]
  rw [hrun] at hm
  cases hml' : md'.module_link with
  | none =>
    rw [show scanLine dir (⟨true, some md'⟩, [], []) cl =
        (⟨false, none⟩, [], [.warnNoSource md'.source_dir]) from by
      simp [scanLine, hcl, hml']] at hm
    simp at hm
  | some l2 =>
    rw [show scanLine dir (⟨true, some md'⟩, [], []) cl =
        (⟨false, none⟩, [md'], []) from by simp [scanLine, hcl, hml']] at hm
    have hm' : m = md' := by simpa using hm
    subst hm'
    rw [taskRun_calls]
    simp only at hv hs
    simp [loadCallOf, hl, hp, hs, hv, effVersion]

/-- Witness for C8 at a concrete input: a block with `source = "x"` and no
version line loads `("d", "x", "latest")`. -/
theorem no_version_block_loads_latest_witness :
    (taskRun (fun _ _ _ => .ret (some ⟨true⟩)) (fun _ => true)
      ⟨"d", some "x", none⟩).1 = [⟨"d", "x", "latest"⟩] := by
  refine no_version_block_loads_latest (fun _ _ _ => .ret (some ⟨true⟩)) (fun _ => true)
    "d" "module \"m\" \x7b\n" "\x7d\n" ["  source = \"x\"\n"] ⟨"d", some "x", none⟩ "x"
    (by rfl) (by decide) (by rfl) (by decide) rfl rfl

end ModuleFinder
